import Mathlib

/-!
# Verification of the health2025 evidence-token core

Shallow embedding of the core of the repository:
* `apps/api/domain/codebook.py` — catalog loading, normalization and token decoding
* `apps/api/domain/scoring.py` — diagnosis credit, positive-evidence recall, interaction length
* `apps/api/routers/professor.py` — grading composition
* `apps/api/routers/patient.py` — token composition and the session-not-found path
* `apps/api/domain/store.py` — the in-memory session store

JSON values are modelled by `JVal` (numbers as `Int`; the catalog fields the
code reads are strings, and the probabilities that live in scoring are
modelled exactly as rationals `ℚ`, standing for Python floats).  Python dicts
are modelled as association lists with insert-or-overwrite-in-place semantics,
which is exactly the observable behaviour of insertion-ordered Python dicts.
-/

namespace Health2025

/-- A parsed JSON value (`json.loads` output).  Numbers are modelled as `Int`:
every number the decoding/scoring core actually inspects is either a string
or is only ever rendered back verbatim. -/
inductive JVal : Type where
  | str (s : String)
  | num (n : Int)
  | bool (b : Bool)
  | null
  | arr (xs : List JVal)
  | obj (fields : List (String × JVal))

mutual

/-- Structural equality test on JSON values. -/
def jeq : JVal → JVal → Bool
  | .str a, .str b => a == b
  | .num a, .num b => a == b
  | .bool a, .bool b => a == b
  | .null, .null => true
  | .arr xs, .arr ys => jeqL xs ys
  | .obj fs, .obj gs => jeqO fs gs
  | _, _ => false

/-- Structural equality test on JSON arrays. -/
def jeqL : List JVal → List JVal → Bool
  | [], [] => true
  | x :: xs, y :: ys => jeq x y && jeqL xs ys
  | _, _ => false

/-- Structural equality test on JSON object field lists. -/
def jeqO : List (String × JVal) → List (String × JVal) → Bool
  | [], [] => true
  | (k, v) :: fs, (k', v') :: gs => k == k' && jeq v v' && jeqO fs gs
  | _, _ => false

end

/-- A Python dict produced by `json.loads` (string keys). -/
abbrev Obj := List (String × JVal)

/-- Soundness of the structural equality tests, by strong induction on size. -/
theorem jeq_sound :
    ∀ n : ℕ,
      (∀ a b : JVal, sizeOf a ≤ n → (jeq a b = true ↔ a = b)) ∧
      (∀ xs ys : List JVal, sizeOf xs ≤ n → (jeqL xs ys = true ↔ xs = ys)) ∧
      (∀ fs gs : List (String × JVal), sizeOf fs ≤ n → (jeqO fs gs = true ↔ fs = gs)) := by
  intro n
  induction n using Nat.strong_induction_on with
  | _ n ih =>
    refine ⟨?_, ?_, ?_⟩
    · intro a b hs
      cases a <;> cases b <;> simp [jeq]
      case arr.arr xs ys =>
        have hlt : sizeOf xs < n := by simp at hs; omega
        exact (ih _ hlt).2.1 xs ys le_rfl
      case obj.obj fs gs =>
        have hlt : sizeOf fs < n := by simp at hs; omega
        exact (ih _ hlt).2.2 fs gs le_rfl
    · intro xs ys hs
      cases xs <;> cases ys <;> simp [jeqL]
      case cons.cons x xs y ys =>
        have hx : sizeOf x < n := by simp at hs; omega
        have hxs : sizeOf xs < n := by simp at hs; omega
        rw [(ih _ hx).1 x y le_rfl, (ih _ hxs).2.1 xs ys le_rfl]
    · intro fs gs hs
      cases fs <;> cases gs <;> simp [jeqO]
      case cons.cons f fs g gs =>
        obtain ⟨k, v⟩ := f
        obtain ⟨k', v'⟩ := g
        have hv : sizeOf v < n := by simp at hs; omega
        have hfs : sizeOf fs < n := by simp at hs; omega
        simp [jeqO, (ih _ hv).1 v v' le_rfl, (ih _ hfs).2.2 fs gs le_rfl, and_assoc]

instance : DecidableEq JVal := fun a b =>
  decidable_of_iff _ ((jeq_sound (sizeOf a)).1 a b le_rfl)

/-- Python truthiness (`bool(v)`) for the JSON values above:
empty string, zero, `False`, `None`, empty list and empty dict are falsy. -/
def JVal.truthy : JVal → Bool
  | .str s => !(s == "")
  | .num n => !(n == 0)
  | .bool b => b
  | .null => false
  | .arr xs => !xs.isEmpty
  | .obj fs => !fs.isEmpty

/-- Generic Python-dict insertion `d[k] = v` (keys may be any JSON value:
the evidence code taken from a row is not forced to be a string): overwrite
in place if the key is present (keeping its position), else append. -/
def dinsert {α β : Type} [DecidableEq α] : List (α × β) → α → β → List (α × β)
  | [], k, v => [(k, v)]
  | (k', v') :: rest, k, v =>
      if k' = k then (k, v) :: rest else (k', v') :: dinsert rest k v

/-- Generic Python-dict lookup (`m.get(k)`), first match (dict keys are
unique anyway). -/
def dget {α β : Type} [DecidableEq α] : List (α × β) → α → Option β
  | [], _ => none
  | (k', v') :: rest, k => if k' = k then some v' else dget rest k

/-- `d.get(k)` on a JSON object: the stored value, or `None` when absent. -/
def pyGet (o : Obj) (k : String) : JVal := (dget o k).getD .null

/-- `k in d` on a JSON object. -/
def hasKey (o : Obj) (k : String) : Bool := (dget o k).isSome

/-- `d[k] = v` on a JSON object. -/
def dictInsert (o : Obj) (k : String) (v : JVal) : Obj := dinsert o k v

/-- Python `repr` of a string (quote choice as in CPython: double quotes when
the text holds a single quote and no double quote; escaping of rarer
characters is not modelled — the catalog texts the code renders never pass
through `repr`, only container values do). -/
def reprQuote (s : String) : String :=
  if s.contains '\'' && !(s.contains '"') then "\"" ++ s ++ "\"" else "'" ++ s ++ "'"

mutual

/-- Python `repr` of a JSON value. -/
def pyRepr : JVal → String
  | .str s => reprQuote s
  | .num n => toString n
  | .bool b => if b then "True" else "False"
  | .null => "None"
  | .arr xs => "[" ++ pyReprList xs ++ "]"
  | .obj fs => "\x7b" ++ pyReprObj fs ++ "\x7d"

/-- Comma-joined `repr`s of list elements. -/
def pyReprList : List JVal → String
  | [] => ""
  | [x] => pyRepr x
  | x :: xs => pyRepr x ++ ", " ++ pyReprList xs

/-- Comma-joined `key: value` `repr`s of dict entries. -/
def pyReprObj : List (String × JVal) → String
  | [] => ""
  | [(k, v)] => reprQuote k ++ ": " ++ pyRepr v
  | (k, v) :: fs => reprQuote k ++ ": " ++ pyRepr v ++ ", " ++ pyReprObj fs

end

/-- Python `str()` of a JSON value: identity on strings, `repr` otherwise. -/
def pyStr : JVal → String
  | .str s => s
  | v => pyRepr v

/-- Python `x or y or ...`: the first truthy operand, else the last operand. -/
def orChain : List JVal → JVal
  | [] => .null
  | [x] => x
  | x :: xs => if x.truthy then x else orChain xs

/-! ## Evidence token algebra

The separator is the literal `"_@_"`.  `splitOnceCL` finds the first
occurrence, so it simultaneously models Python's `"_@_" in token`
(occurrence exists), `token.split("_@_", 1)` (the two components), and
`token.split("_@_")[0]` (the first component). -/

/-- The value separator `_@_` as a character list. -/
def sepL : List Char := ['_', '@', '_']

/-- Split a character list at the first occurrence of the separator:
`some (before, after)`, or `none` when the separator does not occur. -/
def splitOnceCL : List Char → Option (List Char × List Char)
  | [] => none
  | c :: rest =>
      if sepL.isPrefixOf (c :: rest) then some ([], (c :: rest).drop sepL.length)
      else
        match splitOnceCL rest with
        | some (pre, post) => some (c :: pre, post)
        | none => none

/-- `token.split("_@_", 1)` as an optional (head, tail) pair;
`none` models `"_@_" not in token`. -/
def splitOnce (t : String) : Option (String × String) :=
  (splitOnceCL t.toList).map fun p => (⟨p.1⟩, ⟨p.2⟩)

/-- `token.split("_@_")[0]`: the head identity of a token
(`scoring.per_score`, `professor.grade` and `patient.ask` all reduce tokens
this way). -/
def headOf (t : String) : String :=
  match splitOnce t with
  | some p => p.1
  | none => t

/-- Python `s.startswith(pre)` (Lean's own `String.startsWith` is
well-founded and does not reduce in the kernel, so the prefix test is
modelled over character lists). -/
def pyStartsWith (s pre : String) : Bool := pre.toList.isPrefixOf s.toList

/-! ## Codebook loading (`codebook.py`) -/

/-- The evidence code of a row:
`ev.get("code_evidence") or ev.get("code") or ev.get("id")`. -/
def evCode (ev : Obj) : JVal :=
  orChain [pyGet ev "code_evidence", pyGet ev "code", pyGet ev "id"]

/-- The value list of a row:
`ev.get("possible-values") or ev.get("possible_values") or ev.get("values") or []`. -/
def valsOf (ev : Obj) : JVal :=
  orChain [pyGet ev "possible-values", pyGet ev "possible_values", pyGet ev "values", .arr []]

/-- The value code of a value row:
`val.get("code_value") or val.get("code") or val.get("id")`. -/
def vCode (val : Obj) : JVal :=
  orChain [pyGet val "code_value", pyGet val "code", pyGet val "id"]

/-- One iteration of the first `_build_maps` loop (`for ev in self.e`):
rows that are not dicts, or whose code is falsy, are skipped; the code is
written back into the row (`ev["code_evidence"] = code`); duplicate codes
overwrite in place. -/
def stepE (m : List (JVal × Obj)) (j : JVal) : List (JVal × Obj) :=
  match j with
  | .obj ev =>
      let code := evCode ev
      if code.truthy then dinsert m code (dictInsert ev "code_evidence" code) else m
  | _ => m

/-- First half of `Codebook._build_maps`: the `E_MAP` table, `"E_XX" → row`. -/
def buildE (rows : List JVal) : List (JVal × Obj) :=
  rows.foldl stepE []

/-- One iteration of the inner value loop of `_build_maps`
(`for val in vals`): non-dict values and falsy value codes are skipped. -/
def stepVal (code : JVal) (m : List ((JVal × JVal) × Obj)) (v : JVal) :
    List ((JVal × JVal) × Obj) :=
  match v with
  | .obj val =>
      let vc := vCode val
      if vc.truthy then dinsert m (code, vc) val else m
  | _ => m

/-- One iteration of the outer value loop of `_build_maps`
(`for ev in self.E_MAP.values()`): a non-list value payload is skipped. -/
def stepEv (m : List ((JVal × JVal) × Obj)) (kv : JVal × Obj) :
    List ((JVal × JVal) × Obj) :=
  match valsOf kv.2 with
  | .arr vals => vals.foldl (stepVal (pyGet kv.2 "code_evidence")) m
  | _ => m

/-- Second half of `Codebook._build_maps`: the `V_MAP` table,
`("E_XX","V_YYY") → value row`, flattened from each `E_MAP` row's value list. -/
def buildV (emap : List (JVal × Obj)) : List ((JVal × JVal) × Obj) :=
  emap.foldl stepEv []

/-- The built lookup tables of `Codebook`. -/
structure Codebook where
  E_MAP : List (JVal × Obj)
  V_MAP : List ((JVal × JVal) × Obj)
  deriving DecidableEq

/-- Keys tried, in order, for a dict wrapping the evidence list
(`for k in ("evidences", "evidence", "data", "items")`). -/
def wrapKeys : List String := ["evidences", "evidence", "data", "items"]

/-- Scan the wrap keys in priority order for a list-valued entry. -/
def findWrapped : List String → Obj → Option (List JVal)
  | [], _ => none
  | k :: ks, fs =>
      match pyGet fs k with
      | .arr xs => some xs
      | _ => findWrapped ks fs

/-- `{"code_evidence": code, **row}`: a fresh dict seeded with the backfilled
code, then updated with the row's own entries (the row's own `code_evidence`,
if any, wins). -/
def backfillRow (code : String) (row : Obj) : Obj :=
  row.foldl (fun acc p => dictInsert acc p.1 p.2) [("code_evidence", .str code)]

/-- Normalization of the parsed evidences document to a row list
(`Codebook.__init__`): a dict is unwrapped at the first conventional key
holding a list, else treated as dict-of-dicts (non-dict values skipped,
the key backfilled as the code); a list is taken as-is; anything else is the
`ValueError` (`FormatError`) case, modelled as `none`. -/
def normalizeEvidences : JVal → Option (List JVal)
  | .obj fs =>
      some
        (match findWrapped wrapKeys fs with
         | some xs => xs
         | none =>
             fs.foldl
               (fun acc p =>
                 match p.2 with
                 | .obj row => acc ++ [.obj (backfillRow p.1 row)]
                 | _ => acc)
               [])
  | .arr xs => some xs
  | _ => none

/-- The outcome of parsing the evidences file text: either the whole document
parsed as one JSON value, or — only when whole-document parsing fails — the
JSON-Lines fallback, one parsed value per non-blank line. -/
inductive ParsedDoc : Type where
  | whole (j : JVal)
  | jsonl (lines : List JVal)
  deriving DecidableEq

/-- The Python object the shape dispatch in `Codebook.__init__` runs on:
the JSONL fallback yields a plain Python list. -/
def ParsedDoc.eObj : ParsedDoc → JVal
  | .whole j => j
  | .jsonl ls => .arr ls

/-- `Codebook.__init__` + `_build_maps` over an already-parsed evidences
document; `none` models the raised `ValueError` (no partial catalog exists). -/
def mkCodebook (d : ParsedDoc) : Option Codebook :=
  (normalizeEvidences d.eObj).map fun rows =>
    let e := buildE rows
    ⟨e, buildV e⟩

/-! ## Token decoding (`Codebook.decode_token`) -/

/-- Display-field aliases tried by the binary branch of `decode_token`. -/
def dispKeys : List String := ["question_en", "name_en", "label_en", "question", "name", "label"]

/-- The binary-token loop: `for k in (...): if ev and k in ev: return str(ev[k])`. -/
def firstDisp (ev : Option Obj) : List String → Option JVal
  | [] => none
  | k :: ks =>
      match ev with
      | some o => if !o.isEmpty && hasKey o k then some (pyGet o k) else firstDisp (some o) ks
      | none => none

/-- `ev.get("question_en") or ev.get("name_en") or ev.get("question") or head`. -/
def qOf (ev : Obj) (head : String) : JVal :=
  orChain [pyGet ev "question_en", pyGet ev "name_en", pyGet ev "question", .str head]

/-- `val.get("value_en") or val.get("label_en") or val.get("value") or val.get("label") or tail`. -/
def labelOf (val : Obj) (tail : String) : JVal :=
  orChain [pyGet val "value_en", pyGet val "label_en", pyGet val "value", pyGet val "label", .str tail]

/-- `Codebook.decode_token`: total over all token strings; unknown codes fall
back to returning the input unchanged. -/
def decode_token (cb : Codebook) (token : String) : String :=
  match splitOnce token with
  | none =>
      -- Case 1: simple binary token
      match firstDisp (dget cb.E_MAP (.str token)) dispKeys with
      | some v => pyStr v
      | none => token
  | some (head, tail) =>
      let ev? := dget cb.E_MAP (.str head)
      -- 2a) categorical/multi-choice value
      let cat : Option String :=
        if pyStartsWith tail "V_" then
          match ev?, dget cb.V_MAP (.str head, .str tail) with
          | some ev, some val =>
              if !ev.isEmpty && !val.isEmpty then
                some (pyStr (qOf ev head) ++ " → " ++ pyStr (labelOf val tail))
              else none
          | _, _ => none
        else none
      match cat with
      | some s => s
      | none =>
          -- 2b) numeric/ordinal value, else the fallback
          match ev? with
          | some ev => if !ev.isEmpty then pyStr (qOf ev head) ++ " → " ++ tail else token
          | none => token

/-! ## Scoring (`scoring.py`)

Python floats are modelled as exact rationals; `round` is Python's (and
IEEE's) round-half-to-even on the exact value. -/

/-- Python `round` to an integer: nearest, ties to even. -/
def pyRound (q : ℚ) : ℤ :=
  let f := ⌊q⌋
  let r := q - f
  if r < 1 / 2 then f
  else if 1 / 2 < r then f + 1
  else if f % 2 = 0 then f else f + 1

/-- Python `str.lower()` (on the ASCII alphabets the catalog uses),
character by character. -/
def lowerStr (s : String) : String := ⟨s.toList.map Char.toLower⟩

/-- Python `str.strip()`: drop leading and trailing whitespace. -/
def pyStrip (s : String) : String :=
  ⟨((s.toList.dropWhile Char.isWhitespace).reverse.dropWhile Char.isWhitespace).reverse⟩

/-- One differential entry `{"disease": ..., "prob": ...}`. -/
structure DiffEntry where
  disease : String
  prob : ℚ
  deriving DecidableEq

/-- The loop of `diagnosis_credit`: `p = 0.0` then the first case-insensitive
match sets `p` and breaks. -/
def firstMatchProb : List DiffEntry → String → ℚ
  | [], _ => 0
  | d :: ds, dx => if lowerStr d.disease = lowerStr dx then d.prob else firstMatchProb ds dx

/-- `scoring.diagnosis_credit`: `int(round(100 * p))` for the first
case-insensitive differential match, `p = 0.0` when none matches. -/
def diagnosis_credit (differential : List DiffEntry) (dx : String) : ℤ :=
  pyRound (100 * firstMatchProb differential dx)

/-- `scoring.per_score`: positive evidence recall over head identities
(`case_heads` and `rev_heads` are Python sets of `token.split("_@_")[0]`). -/
def per_score (case_evidences : List String) (revealed : List String) : ℤ :=
  if (case_evidences.map headOf).toFinset = ∅ then 0
  else
    pyRound (100 * (((case_evidences.map headOf).toFinset ∩ (revealed.map headOf).toFinset).card : ℚ) /
      ((case_evidences.map headOf).toFinset.card : ℚ))

/-- `scoring.il_score`: interaction length as a clamped raw count. -/
def il_score (turns_used : ℤ) : ℤ := max 0 turns_used

/-! ## Grading (`professor.py`) and the session store (`store.py`) -/

/-- One loaded case record (`cases/sample_cases.jsonl` rows, schema per the
route handlers' accesses). -/
structure Case where
  id : Option String
  age : ℤ
  sex : String
  initial_evidence : String
  evidences : List String
  differential : List DiffEntry
  deriving DecidableEq

/-- Per-session mutable state (`store.state[sid]`). -/
structure Sess where
  case : Case
  revealed : List String
  turns : ℤ
  deriving DecidableEq

/-- The in-memory session map, session id → state. -/
abbrev Store := List (String × Sess)

/-- `SessionStore.get`. -/
def storeGet (st : Store) (sid : String) : Option Sess := dget st sid

/-- The numeric fields computed inside `grade` (`/v1/professor/grade`). -/
structure GradeNums where
  credit : ℤ
  per : ℤ
  il : ℤ
  score : ℤ
  deriving DecidableEq

/-- The body of `grade` after the session lookup: credit, recall, interaction
length, and `score = int(round(0.6*credit + 0.3*per + 0.1*max(0, 100 - il)))`. -/
def gradeCore (differential : List DiffEntry) (evidences : List String)
    (revealed : List String) (turns : ℤ) (dx : String) : GradeNums :=
  { credit := diagnosis_credit differential dx,
    per := per_score evidences revealed,
    il := il_score turns,
    score := pyRound ((0.6 : ℚ) * (diagnosis_credit differential dx) +
      (0.3 : ℚ) * (per_score evidences revealed) +
      (0.1 : ℚ) * (max 0 (100 - il_score turns) : ℤ)) }

/-- Outcome of the `grade` route: the raised `HTTPException(404, ...)`
propagates to the caller as a distinct not-found response. -/
inductive GradeOutcome : Type where
  | notFound (status : ℕ) (detail : String)
  | ok (normalized_dx : String) (nums : GradeNums)
  deriving DecidableEq

/-- The `grade` handler: unknown session id raises
`HTTPException(404, "Session not found.")`; otherwise the scores are computed
over the session's case, revealed set and turn count. -/
def gradeHandler (st : Store) (sid : String) (diagnosis_text : String) : GradeOutcome :=
  match storeGet st sid with
  | none => .notFound 404 "Session not found."
  | some sess =>
      let normalized := pyStrip diagnosis_text
      .ok normalized
        (gradeCore sess.case.differential sess.case.evidences sess.revealed sess.turns normalized)

/-! ## Token composition and the `ask` error path (`patient.py`) -/

/-- The optional value returned by the NLU collaborator (`int` or `str`). -/
inductive NLUValue : Type where
  | int (n : ℤ)
  | str (s : String)
  deriving DecidableEq

/-- Step 2 of `ask`: compose the token for value-carrying features.
`token = f_head`; an integer value appends its decimal rendering after the
separator; a string value is prefixed with `V_` unless it already carries
that prefix. -/
def compose (f_head : String) (value : Option NLUValue) : String :=
  match value with
  | none => f_head
  | some (.int n) => f_head ++ "_@_" ++ toString n
  | some (.str v) => f_head ++ "_@_" ++ (if pyStartsWith v "V_" then v else "V_" ++ v)

/-- What the `ask` route hands back to its caller.  The handler's whole body
sits in a `try`/`except Exception` block whose handler returns the JSON
payload `{"answer": None, "decoded": [], "revealed": [], "error": str(e)}`;
`errorEnvelope` is that payload. -/
inductive AskOutcome : Type where
  | ok (answer : String) (revealed : List String) (decoded : List String)
  | errorEnvelope (error : String)
  deriving DecidableEq

/-- `str(HTTPException(404, "Session not found. Call /v1/patient/start first."))`
as rendered by Starlette (`"{status_code}: {detail}"`). -/
def askNotFoundMsg : String := "404: Session not found. Call /v1/patient/start first."

/-- The session-lookup prefix of the `ask` handler.  The raised
`HTTPException(404, ...)` is caught by the handler's own blanket
`except Exception` and converted into the error envelope; the rest of the
body (NLU, NLG, reveal bookkeeping) is abstracted as `body`. -/
def askSessionCheck (st : Store) (sid : String) (body : Sess → AskOutcome) : AskOutcome :=
  match storeGet st sid with
  | none => .errorEnvelope askNotFoundMsg
  | some sess => body sess

/-! ## Spec-side token algebra (§4.2) and shape predicate (§4.1) -/

/-- Decimal digits of a character list (the core of Python `int(s)`). -/
def parseNatDigits (ds : List Char) : ℕ :=
  ds.foldl (fun a c => a * 10 + (c.toNat - '0'.toNat)) 0

/-- Python `int(s)` on canonically rendered integers (the only place this is
used validates the tail by re-rendering, so no error handling is needed). -/
def parseInt (s : String) : ℤ :=
  match s.toList with
  | '-' :: ds => -(parseNatDigits ds : ℤ)
  | ds => (parseNatDigits ds : ℤ)

/-- Modelled from the spec: `valuePartOf` (§8, used by the round-trip
property; the source only implements `Compose` and `HeadOf`).  The value part
of a serialized token: nothing for a separator-free (binary) token; the tail
as a categorical value code when it carries the `V_` prefix; the tail parsed
as an integer for a numeric token. -/
def valuePartOf (t : String) : Option NLUValue :=
  match splitOnce t with
  | none => none
  | some p =>
      if pyStartsWith p.2 "V_" then some (.str p.2)
      else if toString (parseInt p.2) = p.2 then some (.int (parseInt p.2)) else none

/-- A token string of one of the three serialized shapes of the spec's
token algebra: binary (no separator), categorical (tail with the `V_`
prefix), or numeric (tail that is the canonical decimal rendering of an
integer). -/
def tokenWellFormed (t : String) : Bool :=
  match splitOnce t with
  | none => true
  | some p => pyStartsWith p.2 "V_" || (toString (parseInt p.2) == p.2)

/-- Spec-side predicate (from §4.1/§7 of the spec): the top-level parsed
document matches one of the four supported shapes.  A JSON array covers both
"JSON array of rows" and the JSONL fallback (which yields a Python list);
any JSON object is accepted (wrapped array or dict keyed by head code). -/
def matchesSupportedShape (j : JVal) : Prop :=
  (∃ xs, j = .arr xs) ∨ (∃ fs, j = .obj fs)

/-! ## Row/codebook equivalence (for the shape-invariance claim) -/

/-- Two row objects are observationally equal for the loader: every key
lookup agrees and emptiness (Python truthiness of a dict) agrees.  A dict
re-built with the same bindings in a different order is `rowEquiv` to the
original. -/
def rowEquiv (r r' : Obj) : Prop :=
  (∀ k, dget r k = dget r' k) ∧ (r = [] ↔ r' = [])

/-- Pointwise equivalence of two head tables: same keys in the same order,
observationally equal rows. -/
def emapEquiv (m m' : List (JVal × Obj)) : Prop :=
  List.Forall₂ (fun a b => a.1 = b.1 ∧ rowEquiv a.2 b.2) m m'

/-- Pointwise row equivalence of two normalized row lists (every element a
JSON object, pairwise `rowEquiv`). -/
def rowsEquiv (rows rows' : List JVal) : Prop :=
  List.Forall₂ (fun a b => ∃ r r', a = .obj r ∧ b = .obj r' ∧ rowEquiv r r') rows rows'

/-- Load a parsed evidences document and decode one token: the composition
observed by every decode caller. -/
def decodeLoad (d : ParsedDoc) (t : String) : Option String :=
  (mkCodebook d).map fun cb => decode_token cb t

/-! ## Example catalog used by the concrete witnesses -/

/-- Example binary evidence row. -/
def exRow91 : Obj := [("code_evidence", .str "E_91"), ("question_en", .str "Do you have a fever?")]

/-- Example value row. -/
def exVal167 : Obj := [("code_value", .str "V_167"), ("value_en", .str "temple (L)")]

/-- Example categorical evidence row with one value. -/
def exRow55 : Obj :=
  [("code_evidence", .str "E_55"), ("question_en", .str "Where is the pain?"),
   ("possible-values", .arr [.obj exVal167])]

/-- Example numeric evidence row. -/
def exRow56 : Obj := [("code_evidence", .str "E_56"), ("question_en", .str "How intense is the pain?")]

/-- A small well-formed catalog: a binary head, a categorical head with one
value, and a numeric head. -/
def exRows : List JVal := [.obj exRow91, .obj exRow55, .obj exRow56]

/-- The example differential of the end-to-end grading scenario. -/
def fluDifferential : List DiffEntry := [⟨"Flu", 0.55⟩, ⟨"Cold", 0.3⟩]

/-- A store holding one session for the end-to-end grading scenario: case
evidences `[E_53, E_91_@_3]`, revealed `{E_53}`, 2 turns used. -/
def fluStore : Store :=
  [("s1", { case := { id := some "c1", age := 30, sex := "F",
                      initial_evidence := "E_53",
                      evidences := ["E_53", "E_91_@_3"],
                      differential := fluDifferential },
            revealed := ["E_53"], turns := 2 })]

/-- The codebook built from `exRows`. -/
def exCB : Codebook :=
  ⟨buildE exRows, buildV (buildE exRows)⟩

/-! ## Supporting lemmas: Python dicts -/

/-- Lookup after insertion: the inserted key reads back the inserted value,
other keys are untouched. -/
theorem dget_dinsert {α β : Type} [DecidableEq α] (m : List (α × β)) (k q : α) (v : β) :
    dget (dinsert m k v) q = if k = q then some v else dget m q := by
  induction m with
  | nil => simp [dinsert, dget]
  | cons p rest ih =>
      obtain ⟨k', v'⟩ := p
      by_cases h1 : k' = k
      · subst h1
        by_cases h2 : k' = q <;> simp [dinsert, dget, h2]
      · by_cases h2 : k' = q
        · have hkq : ¬ k = q := fun h => h1 (h2.trans h.symm)
          have hqk : ¬ q = k := fun h => h1 (h2.trans h)
          simp [dinsert, h1, dget, h2, hkq, hqk]
        · simp [dinsert, h1, dget, h2, ih]

/-- Insertion never empties a dict. -/
theorem dinsert_ne_nil {α β : Type} [DecidableEq α] (m : List (α × β)) (k : α) (v : β) :
    dinsert m k v ≠ [] := by
  cases m with
  | nil => simp [dinsert]
  | cons p rest =>
      obtain ⟨k', v'⟩ := p
      by_cases h : k' = k <;> simp [dinsert, h]

/-- Members of a dict after insertion come from the insertion or the dict. -/
theorem mem_dinsert {α β : Type} [DecidableEq α] {m : List (α × β)} {k : α} {v : β}
    {a : α × β} (ha : a ∈ dinsert m k v) : a = (k, v) ∨ a ∈ m := by
  induction m with
  | nil => simpa [dinsert] using ha
  | cons p rest ih =>
      obtain ⟨k', v'⟩ := p
      by_cases h : k' = k
      · subst h
        simp only [dinsert, if_pos rfl] at ha
        rcases List.mem_cons.mp ha with h1 | h1
        · exact Or.inl h1
        · exact Or.inr (List.mem_cons_of_mem _ h1)
      · simp only [dinsert, if_neg h] at ha
        rcases List.mem_cons.mp ha with h1 | h1
        · exact Or.inr (h1 ▸ List.mem_cons_self _ _)
        · rcases ih h1 with h2 | h2
          · exact Or.inl h2
          · exact Or.inr (List.mem_cons_of_mem _ h2)

/-- The keys of a dict are pairwise distinct. -/
def nodupKeys {α β : Type} (m : List (α × β)) : Prop := (m.map Prod.fst).Nodup

/-- Keys after insertion come from the insertion or the dict. -/
theorem key_mem_dinsert {α β : Type} [DecidableEq α] {m : List (α × β)} {k : α} {v : β}
    {q : α} (hq : q ∈ (dinsert m k v).map Prod.fst) : q = k ∨ q ∈ m.map Prod.fst := by
  rcases List.mem_map.mp hq with ⟨p, hp, rfl⟩
  rcases mem_dinsert hp with h | h
  · exact Or.inl (by rw [h])
  · exact Or.inr (List.mem_map_of_mem _ h)

/-- Insertion preserves key distinctness. -/
theorem nodupKeys_dinsert {α β : Type} [DecidableEq α] {m : List (α × β)}
    (h : nodupKeys m) (k : α) (v : β) : nodupKeys (dinsert m k v) := by
  induction m with
  | nil => simp [dinsert, nodupKeys]
  | cons p rest ih =>
      obtain ⟨k', v'⟩ := p
      rw [nodupKeys, List.map_cons, List.nodup_cons] at h
      by_cases hk : k' = k
      · subst hk
        simpa [dinsert, nodupKeys] using h
      · rw [nodupKeys]
        simp only [dinsert, if_neg hk, List.map_cons, List.nodup_cons]
        refine ⟨fun hmem => ?_, ih h.2⟩
        rcases key_mem_dinsert hmem with h1 | h1
        · exact hk h1
        · exact h.1 h1

/-- With distinct keys, membership determines the lookup result. -/
theorem dget_eq_some_of_mem {α β : Type} [DecidableEq α] {m : List (α × β)}
    (hnd : nodupKeys m) {k : α} {v : β} (hm : (k, v) ∈ m) : dget m k = some v := by
  induction m with
  | nil => cases hm
  | cons p rest ih =>
      obtain ⟨k', v'⟩ := p
      rw [nodupKeys, List.map_cons, List.nodup_cons] at hnd
      rcases List.mem_cons.mp hm with heq | htl
      · injection heq with h1 h2
        subst h1
        subst h2
        simp [dget]
      · by_cases h : k' = k
        · subst h
          exact absurd (List.mem_map_of_mem Prod.fst htl) hnd.1
        · simpa [dget, h] using ih hnd.2 htl

/-- A successful lookup is a membership. -/
theorem mem_of_dget_eq_some {α β : Type} [DecidableEq α] {m : List (α × β)}
    {k : α} {v : β} (h : dget m k = some v) : (k, v) ∈ m := by
  induction m with
  | nil => cases h
  | cons p rest ih =>
      obtain ⟨k', v'⟩ := p
      by_cases hk : k' = k
      · subst hk
        have h' : v' = v := by simpa [dget] using h
        rw [← h']
        exact List.mem_cons_self _ _
      · simp only [dget, if_neg hk] at h
        exact List.mem_cons_of_mem _ (ih h)

/-! ## Supporting lemmas: the built tables -/

/-- Every `E_MAP` entry stores its own (truthy, hence the row is non-empty)
code under `code_evidence`, equal to its map key. -/
theorem buildE_mem {rows : List JVal} {p : JVal × Obj} (hp : p ∈ buildE rows) :
    pyGet p.2 "code_evidence" = p.1 ∧ p.2 ≠ [] := by
  suffices h : ∀ (rs : List JVal) (m : List (JVal × Obj)),
      (∀ q ∈ m, pyGet q.2 "code_evidence" = q.1 ∧ q.2 ≠ []) →
      ∀ q ∈ rs.foldl stepE m, pyGet q.2 "code_evidence" = q.1 ∧ q.2 ≠ [] by
    exact h rows [] (by simp) p hp
  intro rs
  induction rs with
  | nil => intro m hm q hq; exact hm q hq
  | cons j rest ih =>
      intro m hm q hq
      rw [List.foldl_cons] at hq
      refine ih (stepE m j) ?_ q hq
      intro q' hq'
      cases j
      case obj ev =>
        simp only [stepE] at hq'
        by_cases ht : (evCode ev).truthy
        · rw [if_pos ht] at hq'
          rcases mem_dinsert hq' with rfl | hmem
          · refine ⟨?_, dinsert_ne_nil ev "code_evidence" (evCode ev)⟩
            show pyGet (dictInsert ev "code_evidence" (evCode ev)) "code_evidence" = evCode ev
            simp [pyGet, dictInsert, dget_dinsert]
          · exact hm q' hmem
        · rw [if_neg ht] at hq'
          exact hm q' hq'
      all_goals exact hm q' (by simpa [stepE] using hq')

/-- The `E_MAP` keys are pairwise distinct (it is a Python dict). -/
theorem buildE_nodupKeys (rows : List JVal) : nodupKeys (buildE rows) := by
  suffices h : ∀ (rs : List JVal) (m : List (JVal × Obj)),
      nodupKeys m → nodupKeys (rs.foldl stepE m) by
    exact h rows [] (by simp [nodupKeys])
  intro rs
  induction rs with
  | nil => intro m hm; exact hm
  | cons j rest ih =>
      intro m hm
      rw [List.foldl_cons]
      refine ih (stepE m j) ?_
      cases j
      case obj ev =>
        simp only [stepE]
        by_cases ht : (evCode ev).truthy
        · rw [if_pos ht]
          exact nodupKeys_dinsert hm _ _
        · rwa [if_neg ht]
      all_goals simpa [stepE] using hm

/-- The value rows seen by the inner `_build_maps` loop are non-empty
whenever their value code is truthy. -/
theorem val_ne_nil_of_truthy {val : Obj} (ht : (vCode val).truthy) : val ≠ [] := by
  rintro rfl
  simp [vCode, pyGet, dget, orChain, JVal.truthy] at ht

/-- Inner value loop: every entry it adds is keyed by the given head code
and stores a non-empty value row. -/
theorem foldVal_inv {emap : List (JVal × Obj)} {code : JVal}
    (hcode : ∃ row, dget emap code = some row ∧ row ≠ []) :
    ∀ (vals : List JVal) (m : List ((JVal × JVal) × Obj)),
      (∀ r ∈ m, (∃ row, dget emap r.1.1 = some row ∧ row ≠ []) ∧ r.2 ≠ []) →
      ∀ r ∈ vals.foldl (stepVal code) m,
        (∃ row, dget emap r.1.1 = some row ∧ row ≠ []) ∧ r.2 ≠ [] := by
  intro vals
  induction vals with
  | nil => intro m hm r hr; exact hm r hr
  | cons v rest ih =>
      intro m hm r hr
      rw [List.foldl_cons] at hr
      refine ih (stepVal code m v) ?_ r hr
      intro r' hr'
      cases v
      case obj val =>
        simp only [stepVal] at hr'
        by_cases ht : (vCode val).truthy
        · rw [if_pos ht] at hr'
          rcases mem_dinsert hr' with rfl | hmem
          · exact ⟨hcode, val_ne_nil_of_truthy ht⟩
          · exact hm r' hmem
        · rw [if_neg ht] at hr'
          exact hm r' hr'
      all_goals exact hm r' (by simpa [stepVal] using hr')

/-- Every `V_MAP` entry's head code resolves in `E_MAP` (to a non-empty row)
and stores a non-empty value row: the catalog index invariant. -/
theorem buildV_mem {emap : List (JVal × Obj)}
    (hrow : ∀ p ∈ emap, pyGet p.2 "code_evidence" = p.1 ∧ p.2 ≠ [])
    (hnd : nodupKeys emap) {q : (JVal × JVal) × Obj} (hq : q ∈ buildV emap) :
    (∃ row, dget emap q.1.1 = some row ∧ row ≠ []) ∧ q.2 ≠ [] := by
  suffices h : ∀ (sub : List (JVal × Obj)), (∀ kv ∈ sub, kv ∈ emap) →
      ∀ (m : List ((JVal × JVal) × Obj)),
        (∀ r ∈ m, (∃ row, dget emap r.1.1 = some row ∧ row ≠ []) ∧ r.2 ≠ []) →
        ∀ r ∈ sub.foldl stepEv m,
          (∃ row, dget emap r.1.1 = some row ∧ row ≠ []) ∧ r.2 ≠ [] by
    exact h emap (fun _ h => h) [] (by simp) q hq
  intro sub
  induction sub with
  | nil => intro _ m hm r hr; exact hm r hr
  | cons kv rest ih =>
      intro hsub m hm r hr
      rw [List.foldl_cons] at hr
      refine ih (fun x hx => hsub x (List.mem_cons_of_mem _ hx)) (stepEv m kv) ?_ r hr
      intro r' hr'
      have hkv : kv ∈ emap := hsub kv (List.mem_cons_self _ _)
      have hc : pyGet kv.2 "code_evidence" = kv.1 := (hrow kv hkv).1
      have hne : kv.2 ≠ [] := (hrow kv hkv).2
      have hget : dget emap kv.1 = some kv.2 := dget_eq_some_of_mem hnd hkv
      have hcode : ∃ row, dget emap (pyGet kv.2 "code_evidence") = some row ∧ row ≠ [] :=
        ⟨kv.2, by rwa [hc], hne⟩
      cases hval : valsOf kv.2 with
      | arr vals =>
          simp only [stepEv, hval] at hr'
          exact foldVal_inv hcode vals m hm r' hr'
      | _ => exact hm r' (by simpa [stepEv, hval] using hr')

/-- The binary display loop yields nothing when the head row was not found. -/
theorem firstDisp_none (ks : List String) : firstDisp none ks = none := by
  cases ks <;> simp [firstDisp]

/-- `headOf` agrees with the head component of the one-shot split. -/
theorem headOf_of_splitOnce {t h tl : String} (hs : splitOnce t = some (h, tl)) :
    headOf t = h := by
  simp [headOf, hs]

/-- `headOf` is the whole token when there is no separator. -/
theorem headOf_of_splitOnce_none {t : String} (hs : splitOnce t = none) :
    headOf t = t := by
  simp [headOf, hs]

/-- A non-empty list is not `isEmpty`. -/
theorem isEmpty_false_of_ne_nil {α : Type} {l : List α} (h : l ≠ []) : l.isEmpty = false := by
  cases l with
  | nil => exact absurd rfl h
  | cons a t => rfl

/-- Unfolding a successful `mkCodebook`. -/
theorem mkCodebook_eq {d : ParsedDoc} {cb : Codebook} (hcb : mkCodebook d = some cb) :
    ∃ rows, normalizeEvidences d.eObj = some rows ∧
      cb = ⟨buildE rows, buildV (buildE rows)⟩ := by
  unfold mkCodebook at hcb
  cases hn : normalizeEvidences d.eObj with
  | none => rw [hn] at hcb; cases hcb
  | some rows =>
      rw [hn] at hcb
      simp only [Option.map_some', Option.some.injEq] at hcb
      exact ⟨rows, rfl, hcb.symm⟩

/-! ## C10 — value table / head table invariant -/

/-- C10: for every built catalog, every key `(head, valueCode)` of the value
table has its head present in the head table (with a non-empty row, and a
non-empty value row); consequently, inside `decode_token`, whenever the
categorical value row resolves the head row resolves too and the categorical
rendering is returned — the branch "value resolves but head does not" is
unreachable. -/
theorem c10_value_table_head_invariant (d : ParsedDoc) (cb : Codebook)
    (hcb : mkCodebook d = some cb) :
    (∀ (hv : JVal × JVal) (val : Obj), dget cb.V_MAP hv = some val →
        ∃ row, dget cb.E_MAP hv.1 = some row ∧ row ≠ [] ∧ val ≠ []) ∧
    (∀ (token head tail : String) (val : Obj),
        splitOnce token = some (head, tail) → pyStartsWith tail "V_" = true →
        dget cb.V_MAP (.str head, .str tail) = some val →
        ∃ ev, dget cb.E_MAP (.str head) = some ev ∧
          decode_token cb token = pyStr (qOf ev head) ++ " → " ++ pyStr (labelOf val tail)) := by
  obtain ⟨rows, hn, rfl⟩ := mkCodebook_eq hcb
  have hinv : ∀ (hv : JVal × JVal) (val : Obj),
      dget (buildV (buildE rows)) hv = some val →
      ∃ row, dget (buildE rows) hv.1 = some row ∧ row ≠ [] ∧ val ≠ [] := by
    intro hv val hval
    have hmem := mem_of_dget_eq_some hval
    have h := buildV_mem (fun p hp => buildE_mem hp) (buildE_nodupKeys rows) hmem
    obtain ⟨⟨row, hrow, hrne⟩, hvne⟩ := h
    exact ⟨row, hrow, hrne, hvne⟩
  refine ⟨hinv, ?_⟩
  intro token head tail val hsplit hV hval
  obtain ⟨row, hrow, hrne, hvne⟩ := hinv (.str head, .str tail) val hval
  refine ⟨row, hrow, ?_⟩
  simp [decode_token, hsplit, hV, hrow, hval,
    isEmpty_false_of_ne_nil hrne, isEmpty_false_of_ne_nil hvne]

/-- C10 witness: in the example catalog the value-table entry
`("E_55","V_167")` has its head `E_55` present in the head table. -/
theorem c10_value_table_head_invariant_witness :
    ∃ row, dget exCB.E_MAP (.str "E_55") = some row ∧ row ≠ [] ∧ exVal167 ≠ [] :=
  (c10_value_table_head_invariant (.whole (.arr exRows)) exCB rfl).1
    (.str "E_55", .str "V_167") exVal167 (by decide)

/-! ## C2 — categorical decode cases -/

/-- C2: for a value-carrying token `head ++ "_@_" ++ tail` whose tail carries
the categorical-value prefix `V_`, over any built catalog: if both the head
row and the `(head, tail)` value row resolve, `decode_token` returns
`"{questionText} → {valueLabel}"`; if the value does not resolve but the head
does, it returns the numeric-style rendering `"{questionText} → {tail}"`;
and if the head does not resolve it returns the raw token unchanged. -/
theorem c2_decode_categorical_cases (d : ParsedDoc) (cb : Codebook)
    (hcb : mkCodebook d = some cb) (token head tail : String)
    (hsplit : splitOnce token = some (head, tail)) (hV : pyStartsWith tail "V_" = true) :
    (∀ ev val, dget cb.E_MAP (.str head) = some ev →
        dget cb.V_MAP (.str head, .str tail) = some val →
        decode_token cb token = pyStr (qOf ev head) ++ " → " ++ pyStr (labelOf val tail)) ∧
    (∀ ev, dget cb.E_MAP (.str head) = some ev →
        dget cb.V_MAP (.str head, .str tail) = none →
        decode_token cb token = pyStr (qOf ev head) ++ " → " ++ tail) ∧
    (dget cb.E_MAP (.str head) = none → decode_token cb token = token) := by
  obtain ⟨rows, hn, rfl⟩ := mkCodebook_eq hcb
  refine ⟨?_, ?_, ?_⟩
  · intro ev val hev hval
    have hevne : ev ≠ [] := (buildE_mem (mem_of_dget_eq_some hev)).2
    have hvne : val ≠ [] := by
      have := buildV_mem (fun p hp => buildE_mem hp) (buildE_nodupKeys rows)
        (mem_of_dget_eq_some hval)
      exact this.2
    simp [decode_token, hsplit, hV, hev, hval,
      isEmpty_false_of_ne_nil hevne, isEmpty_false_of_ne_nil hvne]
  · intro ev hev hval
    have hevne : ev ≠ [] := (buildE_mem (mem_of_dget_eq_some hev)).2
    simp [decode_token, hsplit, hV, hev, hval, isEmpty_false_of_ne_nil hevne]
  · intro hev
    simp [decode_token, hsplit, hV, hev]

/-- C2 witness: the three cases on the example catalog — resolved value
(`E_55_@_V_167`), resolved head with unresolved value (`E_55_@_V_9`), and
unresolved head (`E_999_@_V_1`). -/
theorem c2_decode_categorical_witness :
    decode_token exCB "E_55_@_V_167" = "Where is the pain? → temple (L)" ∧
    decode_token exCB "E_55_@_V_9" = "Where is the pain? → V_9" ∧
    decode_token exCB "E_999_@_V_1" = "E_999_@_V_1" := by
  have h167 := c2_decode_categorical_cases (.whole (.arr exRows)) exCB rfl
    "E_55_@_V_167" "E_55" "V_167" (by decide) (by decide)
  have h9 := c2_decode_categorical_cases (.whole (.arr exRows)) exCB rfl
    "E_55_@_V_9" "E_55" "V_9" (by decide) (by decide)
  have h999 := c2_decode_categorical_cases (.whole (.arr exRows)) exCB rfl
    "E_999_@_V_1" "E_999" "V_1" (by decide) (by decide)
  refine ⟨?_, ?_, ?_⟩
  · exact (h167.1 exRow55 exVal167 (by decide) (by decide)).trans (by decide)
  · exact (h9.2.1 exRow55 (by decide) (by decide)).trans (by decide)
  · exact h999.2.2 (by decide)

/-! ## Row-equivalence congruence lemmas (towards C1) -/

/-- `pyGet` only sees lookups. -/
theorem pyGet_congr {r r' : Obj} (h : rowEquiv r r') (k : String) : pyGet r k = pyGet r' k := by
  unfold pyGet
  rw [h.1 k]

/-- Emptiness (dict truthiness) agrees across equivalent rows. -/
theorem isEmpty_congr {r r' : Obj} (h : rowEquiv r r') : r.isEmpty = r'.isEmpty := by
  cases r with
  | nil =>
      cases r' with
      | nil => rfl
      | cons b u => exact absurd (h.2.mp rfl) (by simp)
  | cons a t =>
      cases r' with
      | nil => exact absurd (h.2.mpr rfl) (by simp)
      | cons b u => rfl

/-- The code alias chain only sees lookups. -/
theorem evCode_congr {r r' : Obj} (h : rowEquiv r r') : evCode r = evCode r' := by
  unfold evCode
  rw [pyGet_congr h, pyGet_congr h, pyGet_congr h]

/-- The value-list alias chain only sees lookups. -/
theorem valsOf_congr {r r' : Obj} (h : rowEquiv r r') : valsOf r = valsOf r' := by
  unfold valsOf
  rw [pyGet_congr h, pyGet_congr h, pyGet_congr h]

/-- The question alias chain only sees lookups. -/
theorem qOf_congr {r r' : Obj} (h : rowEquiv r r') (head : String) :
    qOf r head = qOf r' head := by
  unfold qOf
  rw [pyGet_congr h, pyGet_congr h, pyGet_congr h]

/-- Insertion preserves row equivalence. -/
theorem dictInsert_congr {r r' : Obj} (h : rowEquiv r r') (k : String) (v : JVal) :
    rowEquiv (dictInsert r k v) (dictInsert r' k v) := by
  refine ⟨fun q => ?_, ?_⟩
  · unfold dictInsert
    rw [dget_dinsert, dget_dinsert, h.1 q]
  · constructor
    · intro hh; exact absurd hh (dinsert_ne_nil _ _ _)
    · intro hh; exact absurd hh (dinsert_ne_nil _ _ _)

/-- Table insertion preserves table equivalence. -/
theorem dinsert_emapEquiv {m m' : List (JVal × Obj)} (hm : emapEquiv m m')
    {r r' : Obj} (hr : rowEquiv r r') (k : JVal) :
    emapEquiv (dinsert m k r) (dinsert m' k r') := by
  induction hm with
  | nil => exact List.Forall₂.cons ⟨rfl, hr⟩ List.Forall₂.nil
  | cons hab htail ih =>
      rename_i a b l₁ l₂
      obtain ⟨k₁, v₁⟩ := a
      obtain ⟨k₂, v₂⟩ := b
      obtain ⟨hk, hv⟩ := hab
      have hk' : k₁ = k₂ := hk
      subst hk'
      by_cases hkk : k₁ = k
      · simp only [dinsert, if_pos hkk]
        exact List.Forall₂.cons ⟨rfl, hr⟩ htail
      · simp only [dinsert, if_neg hkk]
        exact List.Forall₂.cons ⟨rfl, hv⟩ ih

/-- Equivalent normalized row lists build equivalent head tables. -/
theorem buildE_equiv {rows rows' : List JVal} (h : rowsEquiv rows rows') :
    emapEquiv (buildE rows) (buildE rows') := by
  suffices hs : ∀ m m', emapEquiv m m' →
      emapEquiv (rows.foldl stepE m) (rows'.foldl stepE m') by
    exact hs [] [] List.Forall₂.nil
  induction h with
  | nil => intro m m' hm; exact hm
  | cons hab htail ih =>
      intro m m' hm
      rw [List.foldl_cons, List.foldl_cons]
      apply ih
      obtain ⟨r, r', rfl, rfl, hr⟩ := hab
      simp only [stepE]
      rw [← evCode_congr hr]
      by_cases ht : (evCode r).truthy
      · rw [if_pos ht, if_pos ht]
        exact dinsert_emapEquiv hm (dictInsert_congr hr _ _) _
      · rw [if_neg ht, if_neg ht]
        exact hm

/-- The outer value-table loop only sees lookups of the head row. -/
theorem stepEv_congr {kv kv' : JVal × Obj}
    (hr : rowEquiv kv.2 kv'.2) (m : List ((JVal × JVal) × Obj)) :
    stepEv m kv = stepEv m kv' := by
  unfold stepEv
  rw [valsOf_congr hr, pyGet_congr hr]

/-- Equivalent head tables build identical value tables. -/
theorem buildV_congr {e e' : List (JVal × Obj)} (h : emapEquiv e e') :
    buildV e = buildV e' := by
  suffices hs : ∀ m, e.foldl stepEv m = e'.foldl stepEv m from hs []
  induction h with
  | nil => intro m; rfl
  | cons hab htail ih =>
      intro m
      rw [List.foldl_cons, List.foldl_cons, stepEv_congr hab.2, ih]

/-- Lookups in equivalent head tables fail together or return equivalent rows. -/
theorem dget_emapEquiv {m m' : List (JVal × Obj)} (h : emapEquiv m m') (k : JVal) :
    (dget m k = none ∧ dget m' k = none) ∨
      ∃ r r', dget m k = some r ∧ dget m' k = some r' ∧ rowEquiv r r' := by
  induction h with
  | nil => exact Or.inl ⟨rfl, rfl⟩
  | cons hab htail ih =>
      rename_i a b l₁ l₂
      obtain ⟨k₁, v₁⟩ := a
      obtain ⟨k₂, v₂⟩ := b
      obtain ⟨hk, hv⟩ := hab
      have hk' : k₁ = k₂ := hk
      subst hk'
      by_cases hq : k₁ = k
      · exact Or.inr ⟨v₁, v₂, by simp [dget, hq], by simp [dget, hq], hv⟩
      · simpa [dget, hq] using ih

/-- The binary display loop only sees lookups and emptiness. -/
theorem firstDisp_congr {r r' : Obj} (h : rowEquiv r r') (ks : List String) :
    firstDisp (some r) ks = firstDisp (some r') ks := by
  induction ks with
  | nil => rfl
  | cons k ks ih =>
      have hh : hasKey r k = hasKey r' k := by
        unfold hasKey
        rw [h.1 k]
      simp only [firstDisp]
      rw [isEmpty_congr h, hh, pyGet_congr h, ih]

/-- Decoding is invariant under table equivalence: equivalent head tables
and equal value tables decode every token identically. -/
theorem decode_congr {E E' : List (JVal × Obj)} (hE : emapEquiv E E')
    {V V' : List ((JVal × JVal) × Obj)} (hV : V = V') (t : String) :
    decode_token ⟨E, V⟩ t = decode_token ⟨E', V'⟩ t := by
  subst hV
  cases hs : splitOnce t with
  | none =>
      rcases dget_emapEquiv hE (.str t) with ⟨h1, h2⟩ | ⟨r, r', h1, h2, hr⟩
      · simp only [decode_token, hs, h1, h2]
      · simp only [decode_token, hs, h1, h2, firstDisp_congr hr]
  | some p =>
      obtain ⟨head, tail⟩ := p
      rcases dget_emapEquiv hE (.str head) with ⟨h1, h2⟩ | ⟨r, r', h1, h2, hr⟩
      · simp only [decode_token, hs, h1, h2]
      · by_cases hsw : pyStartsWith tail "V_" = true
        · cases hval : dget V (.str head, .str tail) with
          | none =>
              simp only [decode_token, hs, h1, h2, hval, hsw, if_true,
                isEmpty_congr hr, qOf_congr hr]
          | some val =>
              simp only [decode_token, hs, h1, h2, hval, hsw, if_true,
                isEmpty_congr hr, qOf_congr hr]
        · simp only [Bool.not_eq_true] at hsw
          simp only [decode_token, hs, h1, h2, hsw, Bool.false_eq_true, if_false,
            isEmpty_congr hr, qOf_congr hr]

/-! ## Dict re-ordering: the backfilled row of the dict-of-dicts shape -/

/-- A key outside a dict's key set looks up to nothing. -/
theorem dget_eq_none_of_not_mem_keys {α β : Type} [DecidableEq α] {m : List (α × β)}
    {k : α} (h : k ∉ m.map Prod.fst) : dget m k = none := by
  induction m with
  | nil => rfl
  | cons p rest ih =>
      obtain ⟨k', v'⟩ := p
      simp only [List.map_cons, List.mem_cons] at h
      push_neg at h
      rw [dget, if_neg (Ne.symm h.1)]
      exact ih h.2

/-- Re-inserting a dict's own (distinct-keyed) bindings over any start dict:
bound keys read the dict's value, others fall through to the start. -/
theorem fold_dictInsert_dget {entries : Obj} (hn : (entries.map Prod.fst).Nodup)
    (acc : Obj) (q : String) :
    dget (entries.foldl (fun a p => dictInsert a p.1 p.2) acc) q =
      match dget entries q with
      | some v => some v
      | none => dget acc q := by
  induction entries generalizing acc with
  | nil => rfl
  | cons p rest ih =>
      obtain ⟨k₀, v₀⟩ := p
      rw [List.map_cons, List.nodup_cons] at hn
      rw [List.foldl_cons, ih hn.2 (dictInsert acc k₀ v₀)]
      by_cases hq : k₀ = q
      · subst hq
        rw [dget_eq_none_of_not_mem_keys hn.1]
        simp [dget, dictInsert, dget_dinsert]
      · have h1 : dget ((k₀, v₀) :: rest) q = dget rest q := by simp [dget, hq]
        rw [h1]
        cases hr : dget rest q with
        | some v => rfl
        | none => simp [dictInsert, dget_dinsert, hq]

/-- The re-insertion fold never empties a non-empty start dict. -/
theorem fold_dictInsert_ne_nil {entries acc : Obj} (h : acc ≠ []) :
    entries.foldl (fun a p => dictInsert a p.1 p.2) acc ≠ [] := by
  induction entries generalizing acc with
  | nil => exact h
  | cons p rest ih =>
      rw [List.foldl_cons]
      exact ih (dinsert_ne_nil _ _ _)

/-- The backfilled row `{"code_evidence": code, **row}` is observationally
equal to the row itself whenever the row already binds `code_evidence` and
has distinct keys (the backfilled seed is overwritten by the row's own
binding; only the field order changes). -/
theorem backfill_rowEquiv {r : Obj} (hn : (r.map Prod.fst).Nodup) {c : String}
    {v : JVal} (hv : dget r "code_evidence" = some v) :
    rowEquiv (backfillRow c r) r := by
  refine ⟨fun q => ?_, ?_, ?_⟩
  · unfold backfillRow
    rw [fold_dictInsert_dget hn]
    cases hq : dget r q with
    | some w => rfl
    | none =>
        have hne : ¬ ("code_evidence" = q) := by
          intro hh
          rw [← hh, hv] at hq
          cases hq
        simp [dget, hne]
  · intro hh
    exact absurd hh (fold_dictInsert_ne_nil (by simp))
  · intro hh
    subst hh
    cases hv

/-! ## The four on-disk shapes normalize to equivalent row lists -/

/-- A dict none of whose values is a list is never unwrapped. -/
theorem findWrapped_none_of_obj_values {ks : List String} {fs : Obj}
    (h : ∀ p ∈ fs, ∃ r, p.2 = JVal.obj r) : findWrapped ks fs = none := by
  induction ks with
  | nil => rfl
  | cons k₀ ks ih =>
      have hno : ∀ xs, pyGet fs k₀ ≠ JVal.arr xs := by
        intro xs hh
        unfold pyGet at hh
        cases hg : dget fs k₀ with
        | none => rw [hg] at hh; cases hh
        | some w =>
            rw [hg] at hh
            obtain ⟨r, hr⟩ := h (k₀, w) (mem_of_dget_eq_some hg)
            have hr' : w = JVal.obj r := hr
            simp only [Option.getD_some] at hh
            rw [hr'] at hh
            cases hh
      cases hg : pyGet fs k₀
      case arr xs => exact absurd hg (hno xs)
      all_goals simp [findWrapped, hg, ih]

/-- A wrap key holding the row array is found, whichever conventional key it
is. -/
theorem findWrapped_singleton {k : String} {xs : List JVal} {ks : List String}
    (hk : k ∈ ks) : findWrapped ks [(k, JVal.arr xs)] = some xs := by
  induction ks with
  | nil => cases hk
  | cons k₀ ks ih =>
      by_cases h : k = k₀
      · subst h
        simp [findWrapped, pyGet, dget]
      · rcases List.mem_cons.mp hk with rfl | htl
        · exact absurd rfl h
        · have hnull : pyGet [(k, JVal.arr xs)] k₀ = .null := by
            simp [pyGet, dget, h]
          simp [findWrapped, hnull, ih htl]

/-- A JSON array of rows normalizes to itself. -/
theorem normalize_arr (xs : List JVal) : normalizeEvidences (.arr xs) = some xs := rfl

/-- Loading a whole parsed document, through normalization. -/
theorem decodeLoad_whole (j : JVal) (t : String) :
    decodeLoad (.whole j) t =
      (normalizeEvidences j).map fun rows =>
        decode_token ⟨buildE rows, buildV (buildE rows)⟩ t := by
  unfold decodeLoad mkCodebook ParsedDoc.eObj
  cases normalizeEvidences j <;> rfl

/-- Shape 2 (wrapped array) normalizes to the wrapped rows. -/
theorem normalize_wrapped {k : String} (hk : k ∈ wrapKeys) (xs : List JVal) :
    normalizeEvidences (.obj [(k, .arr xs)]) = some xs := by
  simp [normalizeEvidences, findWrapped_singleton hk]

/-- Shape 3 (dict keyed by head code) normalizes to the backfilled rows, in
key order. -/
theorem normalize_keyed (rows : List Obj) (cs : Obj → String) :
    normalizeEvidences (.obj (rows.map fun r => (cs r, .obj r))) =
      some (rows.map fun r => .obj (backfillRow (cs r) r)) := by
  have hobj : ∀ p ∈ (rows.map fun r => (cs r, JVal.obj r)), ∃ r, p.2 = JVal.obj r := by
    intro p hp
    obtain ⟨r, hr, rfl⟩ := List.mem_map.mp hp
    exact ⟨r, rfl⟩
  have hfold : ∀ (rs : List Obj) (acc : List JVal),
      (rs.map fun r => (cs r, JVal.obj r)).foldl
          (fun acc p =>
            match p.2 with
            | .obj row => acc ++ [.obj (backfillRow p.1 row)]
            | _ => acc) acc =
        acc ++ rs.map fun r => .obj (backfillRow (cs r) r) := by
    intro rs
    induction rs with
    | nil => intro acc; simp
    | cons r rest ih =>
        intro acc
        simp only [List.map_cons, List.foldl_cons, ih, List.append_assoc, List.singleton_append]
  simp only [normalizeEvidences, findWrapped_none_of_obj_values hobj, Option.some.injEq]
  simpa using hfold rows []

/-- The backfilled rows of shape 3 are pointwise equivalent to the plain rows. -/
theorem rowsEquiv_backfill {rows : List Obj} {cs : Obj → String}
    (hw : ∀ r ∈ rows, dget r "code_evidence" = some (.str (cs r)) ∧ (r.map Prod.fst).Nodup) :
    rowsEquiv (rows.map fun r => .obj (backfillRow (cs r) r)) (rows.map .obj) := by
  induction rows with
  | nil => exact List.Forall₂.nil
  | cons r rest ih =>
      refine List.Forall₂.cons
        ⟨backfillRow (cs r) r, r, rfl, rfl, ?_⟩
        (ih fun x hx => hw x (List.mem_cons_of_mem _ hx))
      exact backfill_rowEquiv (hw r (List.mem_cons_self _ _)).2 (hw r (List.mem_cons_self _ _)).1

/-! ## C1 — shape invariance of loading + decoding -/

/-- C1: for a well-formed catalog given as a list of row objects (each row
binds its `code_evidence` as a string with distinct keys), loading it as a
JSON array, as an object wrapping the array under any conventional key, as
an object keyed by head code, or via the JSONL fallback, and then decoding
any token string, produces identical output. -/
theorem c1_shape_invariance (rows : List Obj) (cs : Obj → String) (k : String)
    (hk : k ∈ wrapKeys)
    (hw : ∀ r ∈ rows, dget r "code_evidence" = some (.str (cs r)) ∧ (r.map Prod.fst).Nodup)
    (t : String) :
    decodeLoad (.whole (.obj [(k, .arr (rows.map .obj))])) t =
        decodeLoad (.whole (.arr (rows.map .obj))) t ∧
    decodeLoad (.whole (.obj (rows.map fun r => (cs r, .obj r)))) t =
        decodeLoad (.whole (.arr (rows.map .obj))) t ∧
    decodeLoad (.jsonl (rows.map .obj)) t = decodeLoad (.whole (.arr (rows.map .obj))) t := by
  refine ⟨?_, ?_, rfl⟩
  · rw [decodeLoad_whole, decodeLoad_whole, normalize_wrapped hk, normalize_arr]
  · rw [decodeLoad_whole, decodeLoad_whole, normalize_keyed, normalize_arr]
    simp only [Option.map_some', Option.some.injEq]
    have hE := buildE_equiv (rowsEquiv_backfill hw)
    exact decode_congr hE (buildV_congr hE) t

/-- C1 witness: a one-row catalog in all four shapes decodes `E_91`
identically (to its question text). -/
theorem c1_shape_invariance_witness :
    decodeLoad (.whole (.obj [("data", .arr [.obj exRow91])])) "E_91" =
        decodeLoad (.whole (.arr [.obj exRow91])) "E_91" ∧
    decodeLoad (.whole (.obj [("E_91", .obj exRow91)])) "E_91" =
        decodeLoad (.whole (.arr [.obj exRow91])) "E_91" ∧
    decodeLoad (.jsonl [.obj exRow91]) "E_91" =
        decodeLoad (.whole (.arr [.obj exRow91])) "E_91" ∧
    decodeLoad (.whole (.arr [.obj exRow91])) "E_91" = some "Do you have a fever?" := by
  have h := c1_shape_invariance [exRow91] (fun _ => "E_91") "data" (by decide)
    (fun r hr => by
      simp only [List.mem_singleton] at hr
      subst hr
      exact ⟨by decide, by decide⟩) "E_91"
  exact ⟨h.1, h.2.1, h.2.2, by decide⟩

/-! ## C7 — compose / head round-trip -/

/-- Splitting at the first separator occurrence recombines to the input
(character-list level). -/
theorem splitOnceCL_recombine {l pre post : List Char}
    (h : splitOnceCL l = some (pre, post)) : pre ++ sepL ++ post = l := by
  induction l generalizing pre post with
  | nil => cases h
  | cons c rest ih =>
      by_cases hp : sepL.isPrefixOf (c :: rest)
      · simp only [splitOnceCL, if_pos hp, Option.some.injEq, Prod.mk.injEq] at h
        obtain ⟨h1, h2⟩ := h
        subst h1
        subst h2
        obtain ⟨u, hu⟩ := List.isPrefixOf_iff_prefix.mp hp
        rw [List.nil_append, ← hu, List.drop_left]
      · simp only [splitOnceCL, if_neg hp] at h
        cases hrest : splitOnceCL rest with
        | none => rw [hrest] at h; cases h
        | some p =>
            obtain ⟨p1, p2⟩ := p
            rw [hrest] at h
            simp only [Option.some.injEq, Prod.mk.injEq] at h
            obtain ⟨h1, h2⟩ := h
            subst h1
            subst h2
            have hr := ih hrest
            simp only [List.cons_append]
            rw [hr]

/-- Splitting at the first separator occurrence recombines to the input
(string level). -/
theorem splitOnce_recombine {t h tl : String} (hs : splitOnce t = some (h, tl)) :
    h ++ "_@_" ++ tl = t := by
  unfold splitOnce at hs
  cases hcl : splitOnceCL t.toList with
  | none => rw [hcl] at hs; cases hs
  | some p =>
      obtain ⟨pre, post⟩ := p
      rw [hcl] at hs
      simp only [Option.map_some', Option.some.injEq, Prod.mk.injEq] at hs
      obtain ⟨h1, h2⟩ := hs
      subst h1
      subst h2
      have hrec := splitOnceCL_recombine hcl
      obtain ⟨data⟩ := t
      show String.mk (pre ++ sepL ++ post) = String.mk data
      rw [hrec]
      rfl

/-- C7: `Compose` (step 2 of the `ask` handler) renders an absent value as
the bare head, an integer value as `head ++ "_@_" ++ decimal digits`, a
`V_`-prefixed string value verbatim after the separator and any other string
value with the `V_` prefix inserted; consequently
`Compose(HeadOf(t), valuePartOf(t)) = t` for every well-formed binary,
categorical or numeric token string `t` whose head contains no separator. -/
theorem c7_compose_headOf_roundtrip :
    (∀ head : String, compose head none = head) ∧
    (∀ (head : String) (n : ℤ), compose head (some (.int n)) = head ++ "_@_" ++ toString n) ∧
    (∀ head v : String, pyStartsWith v "V_" = true →
        compose head (some (.str v)) = head ++ "_@_" ++ v) ∧
    (∀ head v : String, pyStartsWith v "V_" = false →
        compose head (some (.str v)) = head ++ "_@_" ++ ("V_" ++ v)) ∧
    (∀ t : String, tokenWellFormed t = true → splitOnce (headOf t) = none →
        compose (headOf t) (valuePartOf t) = t) := by
  refine ⟨fun head => rfl, fun head n => rfl,
    fun head v hv => by simp [compose, hv],
    fun head v hv => by simp [compose, hv],
    fun t hwf _ => ?_⟩
  cases hs : splitOnce t with
  | none =>
      rw [headOf_of_splitOnce_none hs]
      simp [valuePartOf, hs, compose]
  | some p =>
      obtain ⟨h, tl⟩ := p
      rw [headOf_of_splitOnce hs]
      unfold tokenWellFormed at hwf
      rw [hs] at hwf
      by_cases hv : pyStartsWith tl "V_" = true
      · simp only [valuePartOf, hs, if_pos hv, compose, if_pos hv]
        exact splitOnce_recombine hs
      · have hnum : toString (parseInt tl) = tl := by
          simp only [Bool.or_eq_true, beq_iff_eq] at hwf
          rcases hwf with h1 | h1
          · exact absurd h1 hv
          · exact h1
        simp only [valuePartOf, hs, if_neg hv, if_pos hnum, compose]
        rw [hnum]
        exact splitOnce_recombine hs

/-- C7 witness: the prefix-normalization equations at `E_55` and the
round-trip at a categorical, a numeric and a binary token. -/
theorem c7_compose_headOf_roundtrip_witness :
    compose "E_55" (some (.str "V_167")) = "E_55" ++ "_@_" ++ "V_167" ∧
    compose "E_55" (some (.str "167")) = "E_55" ++ "_@_" ++ ("V_" ++ "167") ∧
    compose (headOf "E_55_@_V_167") (valuePartOf "E_55_@_V_167") = "E_55_@_V_167" ∧
    compose (headOf "E_56_@_5") (valuePartOf "E_56_@_5") = "E_56_@_5" ∧
    compose (headOf "E_91") (valuePartOf "E_91") = "E_91" :=
  ⟨c7_compose_headOf_roundtrip.2.2.1 "E_55" "V_167" (by decide),
   c7_compose_headOf_roundtrip.2.2.2.1 "E_55" "167" (by decide),
   c7_compose_headOf_roundtrip.2.2.2.2 "E_55_@_V_167" (by decide) (by decide),
   c7_compose_headOf_roundtrip.2.2.2.2 "E_56_@_5" (by decide) (by decide),
   c7_compose_headOf_roundtrip.2.2.2.2 "E_91" (by decide) (by decide)⟩

/-! ## C8 — session-not-found reporting (the code deviates on `ask`) -/

/-- C8 (code evaluation at the failing input): on an unknown session id the
`grade` route does answer with the distinct 404 "Session not found."
condition, but the `ask` route's own blanket `except Exception` intercepts
its `HTTPException(404, ...)` and turns it into the generic error envelope
`{"answer": None, "decoded": [], "revealed": [], "error": str(e)}` — the
caller of `ask` never receives the distinct not-found response the spec
describes. -/
theorem c8_session_not_found_eval :
    askSessionCheck [] "s1" (fun _ => .ok "" [] []) = .errorEnvelope askNotFoundMsg ∧
    gradeHandler [] "s1" "flu" = .notFound 404 "Session not found." ∧
    askSessionCheck fluStore "s2" (fun _ => .ok "" [] []) = .errorEnvelope askNotFoundMsg ∧
    gradeHandler fluStore "s2" "flu" = .notFound 404 "Session not found." :=
  ⟨rfl, rfl, rfl, rfl⟩

/-! ## C9 — load failure characterization -/

/-- C9: `Codebook.__init__` raises its `FormatError` (`ValueError`) exactly
when the parsed evidences document matches none of the supported shapes, and
a failing load yields no catalog at all (`none` — no partial catalog); the
JSONL fallback by itself never hits the `FormatError`. -/
theorem c9_format_error_iff_unsupported_shape :
    (∀ j : JVal, (mkCodebook (.whole j)).isNone ↔ ¬ matchesSupportedShape j) ∧
    (∀ ls : List JVal, (mkCodebook (.jsonl ls)).isSome) := by
  constructor
  · intro j
    cases j <;> simp [mkCodebook, ParsedDoc.eObj, normalizeEvidences, matchesSupportedShape]
  · intro ls
    simp [mkCodebook, ParsedDoc.eObj, normalizeEvidences]

/-- C9 witness: a bare JSON string is rejected and produces no catalog. -/
theorem c9_format_error_witness :
    ¬ matchesSupportedShape (.str "oops") ∧ (mkCodebook (.whole (.str "oops"))).isNone :=
  ⟨by simp [matchesSupportedShape],
   (c9_format_error_iff_unsupported_shape.1 (.str "oops")).mpr (by simp [matchesSupportedShape])⟩

/-! ## C3 — decode totality and unknown-head fallback -/

/-- C3: `decode_token` is a total Lean function into `String` (it never
fails), and whenever the token's head code is not a key of the built head
table the input string is returned unchanged — in both the separator-free
and the value-carrying branch. -/
theorem c3_decode_total_unknown_head_identity (cb : Codebook) (token : String)
    (h : dget cb.E_MAP (.str (headOf token)) = none) :
    decode_token cb token = token := by
  unfold decode_token
  cases hs : splitOnce token with
  | none =>
      rw [headOf_of_splitOnce_none hs] at h
      simp [h, firstDisp_none]
  | some p =>
      obtain ⟨hd, tl⟩ := p
      rw [headOf_of_splitOnce hs] at h
      by_cases hv : pyStartsWith tl "V_" <;> simp [hs, h, hv]

/-- C3 witness: over the example catalog, the unknown head `E_999` and the
unknown-headed value token `E_999_@_V_1` decode to themselves. -/
theorem c3_decode_unknown_head_witness :
    decode_token exCB "E_999" = "E_999" ∧ decode_token exCB "E_999_@_V_1" = "E_999_@_V_1" :=
  ⟨c3_decode_total_unknown_head_identity exCB "E_999" (by decide),
   c3_decode_total_unknown_head_identity exCB "E_999_@_V_1" (by decide)⟩

/-! ## Scoring lemmas -/

/-- Python `round` is the identity on integers. -/
theorem pyRound_intCast (z : ℤ) : pyRound (z : ℚ) = z := by
  simp [pyRound]

/-- `round` is `z` on `[z, z + 1/2)`. -/
theorem pyRound_eq_floor {q : ℚ} {z : ℤ} (h1 : (z : ℚ) ≤ q) (h2 : q < z + 1 / 2) :
    pyRound q = z := by
  have hf : ⌊q⌋ = z := Int.floor_eq_iff.mpr ⟨h1, by linarith⟩
  unfold pyRound
  rw [hf, if_pos (by linarith)]

/-- `round` is `z` on `(z - 1/2, z)`. -/
theorem pyRound_eq_ceil {q : ℚ} {z : ℤ} (h1 : (z : ℚ) - 1 / 2 < q) (h2 : q < z) :
    pyRound q = z := by
  have hf : ⌊q⌋ = z - 1 := by
    apply Int.floor_eq_iff.mpr
    constructor
    · push_cast; linarith
    · push_cast; linarith
  unfold pyRound
  rw [hf, if_neg (by push_cast; linarith), if_pos (by push_cast; linarith)]
  omega

/-- The first-match loop of `diagnosis_credit` agrees with `List.find?`. -/
theorem firstMatchProb_eq_find (d : List DiffEntry) (dx : String) :
    firstMatchProb d dx =
      match d.find? (fun e => lowerStr e.disease == lowerStr dx) with
      | some e => e.prob
      | none => 0 := by
  induction d with
  | nil => simp [firstMatchProb]
  | cons e es ih =>
      by_cases h : lowerStr e.disease = lowerStr dx
      · rw [List.find?_cons_of_pos _ (by simpa using h)]
        simp [firstMatchProb, h]
      · rw [List.find?_cons_of_neg _ (by simpa using h)]
        simp [firstMatchProb, h, ih]

/-- The first-match loop only looks at the lower-cased submitted name. -/
theorem firstMatchProb_lowerStr (d : List DiffEntry) (dx dx' : String)
    (h : lowerStr dx = lowerStr dx') : firstMatchProb d dx = firstMatchProb d dx' := by
  induction d with
  | nil => rfl
  | cons e es ih => simp [firstMatchProb, h, ih]

/-! ## C5 — diagnosis credit -/

/-- C5: `diagnosis_credit` returns `round(100 · probability)` of the first
differential entry whose disease name matches the submitted name
case-insensitively, and `0` when no entry matches (probabilities are never
summed: only the first match's probability enters); the result depends on
the submitted name only through its lower-casing. -/
theorem c5_diagnosis_credit_first_match :
    (∀ (d : List DiffEntry) (dx : String),
        diagnosis_credit d dx =
          match d.find? (fun e => lowerStr e.disease == lowerStr dx) with
          | some e => pyRound (100 * e.prob)
          | none => 0) ∧
    (∀ (d : List DiffEntry) (dx dx' : String),
        lowerStr dx = lowerStr dx' → diagnosis_credit d dx = diagnosis_credit d dx') := by
  constructor
  · intro d dx
    unfold diagnosis_credit
    rw [firstMatchProb_eq_find]
    cases d.find? (fun e => lowerStr e.disease == lowerStr dx) with
    | none => simpa using pyRound_intCast 0
    | some e => rfl
  · intro d dx dx' h
    unfold diagnosis_credit
    rw [firstMatchProb_lowerStr d dx dx' h]

/-- C5 witness: on the differential `[("Influenza", 0.55), ("Cold", 0.3)]`,
`"INFLUENZA"` and `"influenza"` earn the same credit, namely 55. -/
theorem c5_diagnosis_credit_witness :
    diagnosis_credit [⟨"Influenza", 0.55⟩, ⟨"Cold", 0.3⟩] "INFLUENZA" =
        diagnosis_credit [⟨"Influenza", 0.55⟩, ⟨"Cold", 0.3⟩] "influenza" ∧
    diagnosis_credit [⟨"Influenza", 0.55⟩, ⟨"Cold", 0.3⟩] "INFLUENZA" = 55 := by
  refine ⟨c5_diagnosis_credit_first_match.2 [⟨"Influenza", 0.55⟩, ⟨"Cold", 0.3⟩]
      "INFLUENZA" "influenza" (by decide), ?_⟩
  have hm : firstMatchProb [⟨"Influenza", (0.55 : ℚ)⟩, ⟨"Cold", 0.3⟩] "INFLUENZA" = 0.55 := by
    simp [firstMatchProb, show lowerStr "Influenza" = lowerStr "INFLUENZA" from by decide]
  unfold diagnosis_credit
  rw [hm, show (100 : ℚ) * 0.55 = ((55 : ℤ) : ℚ) from by norm_num, pyRound_intCast]

/-! ## C4 — positive evidence recall (corrected) -/

/-- C4 counterexample: the claim asserts recall `100` whenever the revealed
heads are a superset of the case heads, but for an empty case the superset
condition holds vacuously while `per_score` returns `0`, not `100`. -/
theorem c4_per_superset_counterexample :
    (([] : List String).map headOf).toFinset ⊆ ((["E_53"].map headOf)).toFinset ∧
    per_score [] ["E_53"] = 0 ∧ per_score [] ["E_53"] ≠ 100 := by
  refine ⟨by simp, rfl, ?_⟩
  intro h
  cases h

/-- C4 (amended): `per_score` reduces both token lists to head identities and
returns `round(100 · |caseHeads ∩ revealedHeads| / |caseHeads|)`; it returns
`100` whenever the revealed heads are a superset of the case heads **and the
case has at least one distinct head**; `0` whenever the two head sets are
disjoint; and `0` when the case has zero distinct heads. -/
theorem c4_per_recall_properties (ces rev : List String) :
    ((ces.map headOf).toFinset ≠ ∅ →
      per_score ces rev =
        pyRound (100 * (((ces.map headOf).toFinset ∩ (rev.map headOf).toFinset).card : ℚ) /
          ((ces.map headOf).toFinset.card : ℚ))) ∧
    ((ces.map headOf).toFinset ≠ ∅ →
      (ces.map headOf).toFinset ⊆ (rev.map headOf).toFinset → per_score ces rev = 100) ∧
    ((ces.map headOf).toFinset ∩ (rev.map headOf).toFinset = ∅ → per_score ces rev = 0) ∧
    ((ces.map headOf).toFinset = ∅ → per_score ces rev = 0) := by
  refine ⟨fun hne => by simp [per_score, hne], fun hne hsub => ?_, fun hdisj => ?_, fun he => ?_⟩
  · have h1 : per_score ces rev =
        pyRound (100 * (((ces.map headOf).toFinset ∩ (rev.map headOf).toFinset).card : ℚ) /
          ((ces.map headOf).toFinset.card : ℚ)) := by
      simp [per_score, hne]
    have hcard : ((ces.map headOf).toFinset.card : ℚ) ≠ 0 := by
      simpa [Finset.card_eq_zero] using hne
    rw [h1, Finset.inter_eq_left.mpr hsub, mul_div_assoc, div_self hcard, mul_one]
    simpa using pyRound_intCast 100
  · by_cases he : (ces.map headOf).toFinset = ∅
    · simp [per_score, he]
    · have h1 : per_score ces rev =
          pyRound (100 * (((ces.map headOf).toFinset ∩ (rev.map headOf).toFinset).card : ℚ) /
            ((ces.map headOf).toFinset.card : ℚ)) := by
        simp [per_score, he]
      rw [h1, hdisj]
      simpa using pyRound_intCast 0
  · simp [per_score, he]

/-- C4 witness: case `[E_53, E_91_@_3]` with revealed `[E_53, E_91_@_5]` has
revealed heads ⊇ case heads and scores 100; case `[E_53]` with revealed
`[E_91]` has disjoint heads and scores 0. -/
theorem c4_per_recall_witness :
    per_score ["E_53", "E_91_@_3"] ["E_53", "E_91_@_5"] = 100 ∧
    per_score ["E_53"] ["E_91"] = 0 :=
  ⟨(c4_per_recall_properties ["E_53", "E_91_@_3"] ["E_53", "E_91_@_5"]).2.1
      (by decide) (by decide),
   (c4_per_recall_properties ["E_53"] ["E_91"]).2.2.1 (by decide)⟩

/-! ## C6 — composite score -/

/-- C6: the composite score computed by `grade` equals
`round(0.6·credit + 0.3·recall + 0.1·max(0, 100 − interactionLength))` for
every differential, evidence list, revealed set, turn count and submitted
diagnosis; and on the end-to-end scenario (credit 55, recall 50, 2 turns,
diagnosis "flu") the composite score is 58. -/
theorem c6_composite_score :
    (∀ (diff : List DiffEntry) (ev rev : List String) (turns : ℤ) (dx : String),
        (gradeCore diff ev rev turns dx).score =
          pyRound ((0.6 : ℚ) * (diagnosis_credit diff dx) + (0.3 : ℚ) * (per_score ev rev) +
            (0.1 : ℚ) * (max 0 (100 - il_score turns) : ℤ))) ∧
    gradeHandler fluStore "s1" "flu" = .ok "flu" ⟨55, 50, 2, 58⟩ := by
  refine ⟨fun diff ev rev turns dx => rfl, ?_⟩
  have hcred : diagnosis_credit fluDifferential "flu" = 55 := by
    have hm : firstMatchProb fluDifferential "flu" = 0.55 := by
      simp [fluDifferential, firstMatchProb, show lowerStr "Flu" = lowerStr "flu" from by decide]
    unfold diagnosis_credit
    rw [hm, show (100 : ℚ) * 0.55 = ((55 : ℤ) : ℚ) from by norm_num, pyRound_intCast]
  have hper : per_score ["E_53", "E_91_@_3"] ["E_53"] = 50 := by
    have hne : ¬ ((["E_53", "E_91_@_3"].map headOf).toFinset : Finset String) = ∅ := by decide
    have h1 : (((["E_53", "E_91_@_3"].map headOf).toFinset ∩
        (["E_53"].map headOf).toFinset : Finset String)).card = 1 := by decide
    have h2 : ((["E_53", "E_91_@_3"].map headOf).toFinset : Finset String).card = 2 := by decide
    unfold per_score
    rw [if_neg hne, h1, h2,
      show (100 * ((1 : ℕ) : ℚ) / ((2 : ℕ) : ℚ)) = ((50 : ℤ) : ℚ) from by norm_num,
      pyRound_intCast]
  show GradeOutcome.ok "flu" (gradeCore fluDifferential ["E_53", "E_91_@_3"] ["E_53"] 2 "flu") =
    GradeOutcome.ok "flu" ⟨55, 50, 2, 58⟩
  have hgc : gradeCore fluDifferential ["E_53", "E_91_@_3"] ["E_53"] 2 "flu" = ⟨55, 50, 2, 58⟩ := by
    simp only [gradeCore, GradeNums.mk.injEq]
    refine ⟨hcred, hper, rfl, ?_⟩
    rw [hcred, hper, show (max 0 (100 - il_score 2) : ℤ) = 98 from by decide]
    exact pyRound_eq_ceil (by push_cast; norm_num) (by push_cast; norm_num)
  rw [hgc]

end Health2025
